import Mathlib

set_option linter.unusedVariables false

/-!
Verification of the hash-chained audit log of `System-barangay`.

This file embeds the audit-log ("blockchain logging") subsystem of the
repository's `backend/server.js` into Lean 4 and proves the properties its
specification claims about it.

The embedded pieces are:

* the digest function — `crypto.createHash("sha256").update(s).digest("hex")`
  over the UTF-8 encoding of a string (`sha256hex` below);
* the canonical encoding — `JSON.stringify` of the block-data object with the
  fixed key order `timestamp, user, action, module, description, previousHash`
  (`appendEncode` for the append path of `logAction`, `stringifyBlockData` for
  the verify path, which reads possibly-missing stored fields);
* the append service — `logAction` (server.js lines 343–382): tip lookup by
  timestamp-descending sort, genesis constant for the empty store, digest
  computation, persistence guarded by the unique index on `hash`, and the
  surrounding `try/catch` that swallows every error;
* the verification service — the loop of `GET /api/audit-logs/verify`
  (server.js lines 1013–1066): blocks sorted timestamp-ascending, per-block
  digest recomputation, data-tampering check before chain-link check, stop at
  the first failure.

Most theorems are stated for an arbitrary digest function `H`; hypotheses such
as `Function.Injective H` stand for SHA-256's collision resistance, which is a
computational assumption and cannot be proved of the concrete function.
-/

namespace Barangay

/-! ## 32-bit arithmetic helpers -/

/-- Truncate to a 32-bit word. -/
def w32 (n : Nat) : Nat := n % 4294967296

/-- Rotate a 32-bit word right by `s` bits (`0 < s < 32`, argument `< 2^32`). -/
def rotr (s x : Nat) : Nat := w32 ((x >>> s) ||| (x <<< (32 - s)))

/-- Bitwise complement within 32 bits. -/
def not32 (x : Nat) : Nat := x ^^^ 4294967295

/-! ## SHA-256

A direct functional transcription of FIPS 180-4, used by both `logAction` and
the verify endpoint through Node's `crypto.createHash("sha256")`. All state is
`Nat` with explicit reduction modulo `2^32`; recursion is structural or
fuel-bounded so every definition reduces in the kernel. -/

/-- SHA-256 round constants (FIPS 180-4, written in decimal). -/
def sha256K : List Nat :=
  [1116352408, 1899447441, 3049323471, 3921009573, 961987163,
   1508970993, 2453635748, 2870763221, 3624381080, 310598401,
   607225278, 1426881987, 1925078388, 2162078206, 2614888103,
   3248222580, 3835390401, 4022224774, 264347078, 604807628,
   770255983, 1249150122, 1555081692, 1996064986, 2554220882,
   2821834349, 2952996808, 3210313671, 3336571891, 3584528711,
   113926993, 338241895, 666307205, 773529912, 1294757372,
   1396182291, 1695183700, 1986661051, 2177026350, 2456956037,
   2730485921, 2820302411, 3259730800, 3345764771, 3516065817,
   3600352804, 4094571909, 275423344, 430227734, 506948616,
   659060556, 883997877, 958139571, 1322822218, 1537002063,
   1747873779, 1955562222, 2024104815, 2227730452, 2361852424,
   2428436474, 2756734187, 3204031479, 3329325298]

/-- SHA-256 initial hash value (FIPS 180-4, written in decimal). -/
def sha256H0 : List Nat :=
  [1779033703, 3144134277, 1013904242, 2773480762, 1359893119,
   2600822924, 528734635, 1541459225]

/-- `σ₀` message-schedule function. -/
def ssig0 (x : Nat) : Nat := rotr 7 x ^^^ rotr 18 x ^^^ (x >>> 3)

/-- `σ₁` message-schedule function. -/
def ssig1 (x : Nat) : Nat := rotr 17 x ^^^ rotr 19 x ^^^ (x >>> 10)

/-- `Σ₀` compression function. -/
def bsig0 (x : Nat) : Nat := rotr 2 x ^^^ rotr 13 x ^^^ rotr 22 x

/-- `Σ₁` compression function. -/
def bsig1 (x : Nat) : Nat := rotr 6 x ^^^ rotr 11 x ^^^ rotr 25 x

/-- `Ch(e,f,g)`. -/
def chF (e f g : Nat) : Nat := (e &&& f) ^^^ (not32 e &&& g)

/-- `Maj(a,b,c)`. -/
def majF (a b c : Nat) : Nat := (a &&& b) ^^^ (a &&& c) ^^^ (b &&& c)

/-- Number of zero bytes inserted by SHA-256 padding after the `0x80` byte. -/
def padZeroCount (len : Nat) : Nat := (119 - len % 64) % 64

/-- The message length in bits as 8 big-endian bytes. -/
def lenBytes (len : Nat) : List Nat :=
  let bits := len * 8
  [w32 (bits >>> 56) &&& 255, (bits >>> 48) &&& 255, (bits >>> 40) &&& 255,
   (bits >>> 32) &&& 255, (bits >>> 24) &&& 255, (bits >>> 16) &&& 255,
   (bits >>> 8) &&& 255, bits &&& 255]

/-- SHA-256 padding: `0x80`, zeros to 56 mod 64, then the bit length. -/
def padMsg (msg : List Nat) : List Nat :=
  msg ++ 0x80 :: List.replicate (padZeroCount msg.length) 0 ++ lenBytes msg.length

/-- Group bytes into 32-bit big-endian words (fuel-bounded for kernel reduction). -/
def bytesToWords : Nat → List Nat → List Nat
  | 0, _ => []
  | _ + 1, b0 :: b1 :: b2 :: b3 :: rest =>
      (b0 <<< 24 ||| b1 <<< 16 ||| b2 <<< 8 ||| b3) :: bytesToWords rest.length rest
  | _ + 1, _ => []

/-- One message-schedule extension step; `ws` holds the words most recent first. -/
def extendStep (ws : List Nat) : Nat :=
  w32 (ws.getD 15 0 + ssig0 (ws.getD 14 0) + ws.getD 6 0 + ssig1 (ws.getD 1 0))

/-- Extend the (reversed) schedule by `n` words. -/
def extendWords : Nat → List Nat → List Nat
  | 0, ws => ws
  | n + 1, ws => extendWords n (extendStep ws :: ws)

/-- The SHA-256 working state `a..h`. -/
structure Sha256State where
  a : Nat
  b : Nat
  c : Nat
  d : Nat
  e : Nat
  f : Nat
  g : Nat
  h : Nat

/-- One compression round with round constant `k` and schedule word `w`. -/
def sha256Round (s : Sha256State) (k w : Nat) : Sha256State :=
  let t1 := w32 (s.h + bsig1 s.e + chF s.e s.f s.g + k + w)
  let t2 := w32 (bsig0 s.a + majF s.a s.b s.c)
  ⟨w32 (t1 + t2), s.a, s.b, s.c, w32 (s.d + t1), s.e, s.f, s.g⟩

/-- Run the 64 compression rounds over the zipped constants and schedule. -/
def sha256Rounds : List (Nat × Nat) → Sha256State → Sha256State
  | [], s => s
  | (k, w) :: rest, s => sha256Rounds rest (sha256Round s k w)

/-- Compress one 64-byte block into the running 8-word hash value. -/
def compressBlock (hv : List Nat) (block : List Nat) : List Nat :=
  let w16 := bytesToWords block.length block
  let ws := (extendWords 48 w16.reverse).reverse
  let s0 : Sha256State :=
    ⟨hv.getD 0 0, hv.getD 1 0, hv.getD 2 0, hv.getD 3 0,
     hv.getD 4 0, hv.getD 5 0, hv.getD 6 0, hv.getD 7 0⟩
  let s := sha256Rounds (sha256K.zip ws) s0
  [w32 (hv.getD 0 0 + s.a), w32 (hv.getD 1 0 + s.b), w32 (hv.getD 2 0 + s.c),
   w32 (hv.getD 3 0 + s.d), w32 (hv.getD 4 0 + s.e), w32 (hv.getD 5 0 + s.f),
   w32 (hv.getD 6 0 + s.g), w32 (hv.getD 7 0 + s.h)]

/-- Fold the compression over all 64-byte blocks (fuel-bounded). -/
def sha256Blocks : Nat → List Nat → List Nat → List Nat
  | 0, hv, _ => hv
  | _ + 1, hv, [] => hv
  | fuel + 1, hv, bytes =>
      sha256Blocks fuel (compressBlock hv (bytes.take 64)) (bytes.drop 64)

/-- SHA-256 of a byte sequence, as the 8 final 32-bit words. -/
def sha256Words (msg : List Nat) : List Nat :=
  let padded := padMsg msg
  sha256Blocks padded.length sha256H0 padded

/-- Big-endian bytes of one 32-bit word. -/
def wordBytes (w : Nat) : List Nat :=
  [(w >>> 24) &&& 255, (w >>> 16) &&& 255, (w >>> 8) &&& 255, w &&& 255]

/-- SHA-256 digest as 32 bytes. -/
def sha256 (msg : List Nat) : List Nat :=
  (sha256Words msg).flatMap wordBytes

/-! ## Hex and UTF-8 -/

/-- Lowercase hex digit for `n < 16`. -/
def hexDigit (n : Nat) : Char :=
  if n < 10 then Char.ofNat (48 + n) else Char.ofNat (87 + n)

/-- Two lowercase hex digits of a byte. -/
def byteHex (b : Nat) : List Char := [hexDigit (b / 16 % 16), hexDigit (b % 16)]

/-- Lowercase hex string of a byte sequence. -/
def bytesToHex (bs : List Nat) : String := ⟨bs.flatMap byteHex⟩

/-- UTF-8 encoding of one character, as byte values. -/
def utf8Char (c : Char) : List Nat :=
  let n := c.toNat
  if n < 0x80 then [n]
  else if n < 0x800 then [0xc0 ||| (n >>> 6), 0x80 ||| (n &&& 0x3f)]
  else if n < 0x10000 then
    [0xe0 ||| (n >>> 12), 0x80 ||| ((n >>> 6) &&& 0x3f), 0x80 ||| (n &&& 0x3f)]
  else
    [0xf0 ||| (n >>> 18), 0x80 ||| ((n >>> 12) &&& 0x3f),
     0x80 ||| ((n >>> 6) &&& 0x3f), 0x80 ||| (n &&& 0x3f)]

/-- UTF-8 bytes of a string, the encoding `crypto`'s `update` applies. -/
def utf8Bytes (s : String) : List Nat := s.data.flatMap utf8Char

/-- The digest function of both code paths:
`crypto.createHash("sha256").update(s).digest("hex")`. -/
def sha256hex (s : String) : String := bytesToHex (sha256 (utf8Bytes s))

/-! ## Canonical encoding: `JSON.stringify` on the block-data object

Both `logAction` and the verify endpoint build the object
`{ timestamp, user, action, module, description, previousHash }` with keys in
exactly that insertion order and serialize it with `JSON.stringify`.
`JSON.stringify` quotes each string value with JSON escaping and omits any
property whose value is `undefined` — which happens on the verify path when a
stored document lacks one of the non-required fields. -/

/-- Four lowercase hex digits, as `JSON.stringify` writes `\u00xx` escapes. -/
def hex4 (n : Nat) : List Char :=
  [hexDigit (n / 4096 % 16), hexDigit (n / 256 % 16), hexDigit (n / 16 % 16),
   hexDigit (n % 16)]

/-- JSON escaping of one character, as `JSON.stringify` performs it. -/
def jsonEscapeChar (c : Char) : List Char :=
  if c = '"' then ['\\', '"']
  else if c = '\\' then ['\\', '\\']
  else if c = Char.ofNat 8 then ['\\', 'b']
  else if c = Char.ofNat 9 then ['\\', 't']
  else if c = Char.ofNat 10 then ['\\', 'n']
  else if c = Char.ofNat 12 then ['\\', 'f']
  else if c = Char.ofNat 13 then ['\\', 'r']
  else if c.toNat < 32 then '\\' :: 'u' :: hex4 c.toNat
  else [c]

/-- JSON escaping of a character list. -/
def jsonEscape (cs : List Char) : List Char := cs.flatMap jsonEscapeChar

/-- A JSON string literal: quoted, escaped. -/
def jsonString (s : String) : List Char := '"' :: jsonEscape s.data ++ ['"']

/-- One `"key":"value"` member. -/
def jsonMember (k : String) (v : String) : List Char :=
  jsonString k ++ ':' :: jsonString v

/-- Join member encodings with commas, as `JSON.stringify` does. -/
def joinComma : List (List Char) → List Char
  | [] => []
  | [m] => m
  | m :: m2 :: rest => m ++ ',' :: joinComma (m2 :: rest)

/-- `JSON.stringify` of an object whose present members are `kvs`, in insertion
order (members with `undefined` values have already been dropped). -/
def jsonObject (kvs : List (String × String)) : String :=
  ⟨'\x7b' :: joinComma (kvs.map fun kv => jsonMember kv.1 kv.2) ++ ['\x7d']⟩

/-- The hashable fields of a block as the verify path reads them from storage.
In the Mongoose schema (`logSchema`, server.js lines 231–239) `timestamp` and
`previousHash` are `required`, while `user`, `action`, `module`, `description`
are plain `String` fields that may be absent from a stored document; an absent
field reads back as `undefined`, which `JSON.stringify` drops. -/
structure BlockData where
  timestamp : String
  user : Option String
  action : Option String
  module : Option String
  description : Option String
  previousHash : String
deriving DecidableEq, Repr

/-- The key/value members `JSON.stringify` sees for a block-data object:
fixed key order, `undefined` members dropped. -/
def blockDataMembers (d : BlockData) : List (String × String) :=
  [("timestamp", some d.timestamp), ("user", d.user), ("action", d.action),
   ("module", d.module), ("description", d.description),
   ("previousHash", some d.previousHash)].filterMap
    fun kv => kv.2.map fun v => (kv.1, v)

/-- The canonical encoding used on the **verify** path
(server.js lines 1024–1032): `JSON.stringify(dataToHash)` over the stored
fields. -/
def stringifyBlockData (d : BlockData) : String := jsonObject (blockDataMembers d)

/-- The canonical encoding used on the **append** path
(server.js lines 355–364): `JSON.stringify(dataToHash)` where all six values
are the strings passed to `logAction`, so every key is present. -/
def appendEncode (timestamp user action module description previousHash : String) :
    String :=
  jsonObject [("timestamp", timestamp), ("user", user), ("action", action),
    ("module", module), ("description", description),
    ("previousHash", previousHash)]

/-! ## The chain store

A stored audit-log document. `id` stands for the unique Mongo `_id` the
document receives at creation; `hash` carries a unique index
(`hash: { type: String, unique: true }` in `logSchema`). -/

structure Block where
  id : Nat
  timestamp : String
  user : Option String
  action : Option String
  module : Option String
  description : Option String
  hash : String
  previousHash : String
deriving DecidableEq, Repr

/-- The hashable fields of a stored block, as the verify path reads them. -/
def blockData (b : Block) : BlockData :=
  ⟨b.timestamp, b.user, b.action, b.module, b.description, b.previousHash⟩

/-- The genesis constant of `logAction`: 32 zeros. -/
def GENESIS : String := "00000000000000000000000000000000"

/-- Byte-wise (code-point-wise) strict order on character lists, the order
MongoDB applies when sorting ASCII string fields such as the ISO timestamps. -/
def strLtB : List Char → List Char → Bool
  | [], [] => false
  | [], _ :: _ => true
  | _ :: _, [] => false
  | a :: as, b :: bs =>
      if a.toNat < b.toNat then true
      else if b.toNat < a.toNat then false
      else strLtB as bs

/-- Strict timestamp order. -/
def tsLt (a b : String) : Bool := strLtB a.data b.data

/-- Insert a block into a timestamp-ascending list. -/
def insertByTs (b : Block) : List Block → List Block
  | [] => [b]
  | c :: cs => if tsLt c.timestamp b.timestamp then c :: insertByTs b cs
               else b :: c :: cs

/-- `AuditLog.find().sort({ timestamp: 1 })`: the stored blocks in
timestamp-ascending order. -/
def sortAsc (store : List Block) : List Block := store.foldr insertByTs []

/-- `AuditLog.findOne().sort({ timestamp: -1 })`: a block with maximal
timestamp, i.e. the last block of the ascending ordering. -/
def getTip (store : List Block) : Option Block := (sortAsc store).getLast?

/-- The arguments of one `logAction(action, module, description, user)` call. -/
structure LogCall where
  action : String
  module : String
  description : String
  user : String
deriving DecidableEq, Repr

/-- The body of `logAction` (server.js lines 343–375) up to and including the
`AuditLog.create` call, before the surrounding `catch`: look up the tip,
choose `previousHash`, hash the canonical object, and persist — where the
unique index on `hash` makes `create` reject a duplicate digest. `H` is the
digest function (`sha256hex` in the source). -/
def logActionBody (H : String → String) (now : String) (c : LogCall)
    (store : List Block) : Except String (List Block) :=
  let prevHash := match getTip store with
    | some tip => tip.hash
    | none => GENESIS
  let hash := H (appendEncode now c.user c.action c.module c.description prevHash)
  if store.any fun b => b.hash == hash then
    Except.error "E11000 duplicate key"
  else
    Except.ok (store ++
      [⟨store.length, now, some c.user, some c.action, some c.module,
        some c.description, hash, prevHash⟩])

/-- `logAction` as its callers see it: the whole body runs inside
`try { ... } catch (err) { console.error(...) }`, so a failed append leaves
the store unchanged and the caller always gets a normal return. -/
def logAction (H : String → String) (now : String) (c : LogCall)
    (store : List Block) : List Block :=
  match logActionBody H now c store with
  | Except.ok s => s
  | Except.error _ => store

/-- A serial sequence of `logAction` calls, each with its captured
`new Date().toISOString()` timestamp. -/
def logActions (H : String → String) : List (String × LogCall) → List Block →
    List Block
  | [], store => store
  | (now, c) :: rest, store => logActions H rest (logAction H now c store)

/-! ## The verification service -/

/-- The two failure classes of the verify endpoint
(`"Data Tampering"` and `"Chain Break"`). -/
inductive FailureKind
  | dataTampering
  | chainBreak
deriving DecidableEq, Repr

/-- The structured result of the verify endpoint: `{status: "Secure"}` or
`{status: "Compromised", details: {index, type, id}}`. -/
inductive VerifyResult
  | secure
  | compromised (failureIndex : Nat) (failureKind : FailureKind) (blockId : Nat)
deriving DecidableEq, Repr

/-- The digest the verify loop recomputes for a stored block
(server.js lines 1024–1032). -/
def recomputeHash (H : String → String) (b : Block) : String :=
  H (stringifyBlockData (blockData b))

/-- The verification loop (server.js lines 1020–1050): walk the blocks in the
given order, keeping the previous block; at each index check recomputed digest
against the stored one first, then (for `i > 0`) the link to the previous
block's stored digest; stop at the first failure. -/
def verifyFrom (H : String → String) : Option Block → Nat → List Block →
    VerifyResult
  | _, _, [] => VerifyResult.secure
  | prev, i, b :: rest =>
    if recomputeHash H b ≠ b.hash then
      VerifyResult.compromised i FailureKind.dataTampering b.id
    else
      match prev with
      | none => verifyFrom H (some b) (i + 1) rest
      | some p =>
        if b.previousHash ≠ p.hash then
          VerifyResult.compromised i FailureKind.chainBreak b.id
        else verifyFrom H (some b) (i + 1) rest

/-- The verification loop started on a block sequence in the order the
verifier walks it. -/
def verifyBlocks (H : String → String) (logs : List Block) : VerifyResult :=
  verifyFrom H none 0 logs

/-- `GET /api/audit-logs/verify`: fetch all blocks timestamp-ascending and run
the verification loop. -/
def verifyChainIntegrity (H : String → String) (store : List Block) :
    VerifyResult :=
  verifyBlocks H (sortAsc store)

/-! ## Chain invariants -/

/-- The block list is strictly ascending by timestamp. -/
def tsSortedB : List Block → Bool
  | [] => true
  | [_] => true
  | a :: b :: rest => tsLt a.timestamp b.timestamp && tsSortedB (b :: rest)

/-- Every stored timestamp is strictly below `t`. -/
def tsBelowB (store : List Block) (t : String) : Bool :=
  store.all fun b => tsLt b.timestamp t

/-- Walking the list from `prev`: every block's stored digest matches its
recomputed digest, and every block's `previousHash` matches its predecessor's
stored digest. This is exactly the pair of checks the verify loop performs. -/
def chainedB (H : String → String) : Option Block → List Block → Bool
  | _, [] => true
  | prev, b :: rest =>
      (recomputeHash H b == b.hash) &&
      (match prev with
       | none => true
       | some p => b.previousHash == p.hash) &&
      chainedB H (some b) rest

/-- The stored digests are pairwise distinct (the unique index on `hash`). -/
def hashesNodupB : List Block → Bool
  | [] => true
  | b :: rest => !(rest.any fun c => c.hash == b.hash) && hashesNodupB rest

/-- Consecutive linkage only: each block's `previousHash` equals the previous
block's stored digest. -/
def linkedB : List Block → Bool
  | [] => true
  | [_] => true
  | a :: b :: rest => (b.previousHash == a.hash) && linkedB (b :: rest)

/-- The last block of the walk that starts at `prev` and traverses `l`. -/
def afterChain (prev : Option Block) : List Block → Option Block
  | [] => prev
  | b :: bs => afterChain (some b) bs

/-- The digest a fresh append links to: the tip's digest, or `GENESIS` on an
empty store. -/
def tipHash (store : List Block) : String :=
  match getTip store with
  | some tip => tip.hash
  | none => GENESIS

/-- Every reachable store state: sorted, digests correct, linked, digests
pairwise distinct, and the oldest block carries the genesis constant. -/
def storeInvB (H : String → String) (store : List Block) : Bool :=
  tsSortedB store && chainedB H none store && hashesNodupB store &&
  (match store.head? with
   | some b => b.previousHash == GENESIS
   | none => true)

/-- The `logAction` call timestamps are pairwise strictly increasing. -/
def nowsSortedB : List (String × LogCall) → Bool
  | [] => true
  | (now, _) :: rest => (rest.all fun p => tsLt now p.1) && nowsSortedB rest

/-! ## Order lemmas -/

lemma strLtB_asymm : ∀ as bs : List Char, strLtB as bs = true → strLtB bs as = false
  | [], [] => by simp [strLtB]
  | [], _ :: _ => by simp [strLtB]
  | _ :: _, [] => by simp [strLtB]
  | a :: as, b :: bs => by
    simp only [strLtB]
    rcases Nat.lt_trichotomy a.toNat b.toNat with h | h | h
    · intro _
      simp [h, Nat.lt_asymm h]
    · simp only [h, Nat.lt_irrefl, if_false]
      exact strLtB_asymm as bs
    · intro hcon
      simp [h, Nat.lt_asymm h] at hcon

lemma strLtB_trans : ∀ as bs cs : List Char, strLtB as bs = true →
    strLtB bs cs = true → strLtB as cs = true
  | [], [], _ => by simp [strLtB]
  | [], _ :: _, [] => by simp [strLtB]
  | [], _ :: _, _ :: _ => by simp [strLtB]
  | _ :: _, [], _ => by simp [strLtB]
  | _ :: _, _ :: _, [] => by simp [strLtB]
  | a :: as, b :: bs, c :: cs => by
    simp only [strLtB]
    rcases Nat.lt_trichotomy a.toNat b.toNat with h1 | h1 | h1 <;>
      rcases Nat.lt_trichotomy b.toNat c.toNat with h2 | h2 | h2
    · simp [show a.toNat < c.toNat by omega]
    · simp [show a.toNat < c.toNat by omega]
    · intro _ hcon
      simp [show ¬ b.toNat < c.toNat by omega, h2] at hcon
    · simp [show a.toNat < c.toNat by omega]
    · simp only [show ¬ a.toNat < b.toNat by omega, show ¬ b.toNat < a.toNat by omega,
        show ¬ b.toNat < c.toNat by omega, show ¬ c.toNat < b.toNat by omega,
        show ¬ a.toNat < c.toNat by omega, show ¬ c.toNat < a.toNat by omega,
        if_false]
      exact strLtB_trans as bs cs
    · intro _ hcon
      simp [show ¬ b.toNat < c.toNat by omega, h2] at hcon
    · intro hcon
      simp [show ¬ a.toNat < b.toNat by omega, h1] at hcon
    · intro hcon
      simp [show ¬ a.toNat < b.toNat by omega, h1] at hcon
    · intro hcon
      simp [show ¬ a.toNat < b.toNat by omega, h1] at hcon

lemma tsLt_trans {a b c : String} (h1 : tsLt a b = true) (h2 : tsLt b c = true) :
    tsLt a c = true :=
  strLtB_trans _ _ _ h1 h2

lemma tsLt_asymm {a b : String} (h : tsLt a b = true) : tsLt b a = false :=
  strLtB_asymm _ _ h

/-! ## Sorting an already-sorted store -/

lemma insertByTs_eq_cons {b : Block} {l : List Block}
    (h : ∀ c, l.head? = some c → tsLt b.timestamp c.timestamp = true) :
    insertByTs b l = b :: l := by
  cases l with
  | nil => rfl
  | cons c cs =>
    have hc := h c rfl
    simp [insertByTs, tsLt_asymm hc]

lemma tsSortedB_tail {b : Block} {l : List Block}
    (h : tsSortedB (b :: l) = true) : tsSortedB l = true := by
  cases l with
  | nil => rfl
  | cons c cs =>
    simp only [tsSortedB, Bool.and_eq_true] at h
    exact h.2

lemma tsSortedB_head {b : Block} {l : List Block} {c : Block}
    (h : tsSortedB (b :: l) = true) (hc : l.head? = some c) :
    tsLt b.timestamp c.timestamp = true := by
  cases l with
  | nil => simp at hc
  | cons d ds =>
    simp only [List.head?] at hc
    cases hc
    simp only [tsSortedB, Bool.and_eq_true] at h
    exact h.1

lemma sortAsc_of_sorted : ∀ {l : List Block}, tsSortedB l = true → sortAsc l = l
  | [], _ => rfl
  | b :: rest, h => by
    have hrest := tsSortedB_tail h
    have : sortAsc (b :: rest) = insertByTs b (sortAsc rest) := rfl
    rw [this, sortAsc_of_sorted hrest, insertByTs_eq_cons]
    intro c hc
    exact tsSortedB_head h hc

lemma getTip_of_sorted {l : List Block} (h : tsSortedB l = true) :
    getTip l = l.getLast? := by
  simp [getTip, sortAsc_of_sorted h]

lemma afterChain_cons (b : Block) : ∀ (l : List Block),
    afterChain (some b) l = (b :: l).getLast?
  | [] => rfl
  | c :: cs => by
    have := afterChain_cons c cs
    simp only [afterChain]
    rw [this, List.getLast?_cons_cons]

lemma afterChain_none : ∀ (l : List Block), afterChain none l = l.getLast?
  | [] => rfl
  | b :: bs => afterChain_cons b bs

/-! ## Lemmas about the verification loop -/

lemma chainedB_cons_none {H : String → String} {b : Block} {rest : List Block} :
    chainedB H none (b :: rest) = true ↔
      recomputeHash H b = b.hash ∧ chainedB H (some b) rest = true := by
  simp [chainedB]

lemma chainedB_cons_some {H : String → String} {p b : Block} {rest : List Block} :
    chainedB H (some p) (b :: rest) = true ↔
      recomputeHash H b = b.hash ∧ b.previousHash = p.hash ∧
        chainedB H (some b) rest = true := by
  simp [chainedB, and_assoc]

/-- An intact walked prefix advances the loop past it: state and index move to
the end of the prefix. -/
lemma verifyFrom_append {H : String → String} :
    ∀ {xs : List Block} {prev : Option Block} {i : Nat} (rest : List Block),
    chainedB H prev xs = true →
    verifyFrom H prev i (xs ++ rest) =
      verifyFrom H (afterChain prev xs) (i + xs.length) rest := by
  intro xs
  induction xs with
  | nil => intro prev i rest _; simp [afterChain]
  | cons b bs ih =>
    intro prev i rest h
    have hlen : i + (b :: bs).length = (i + 1) + bs.length := by
      simp [List.length_cons]; omega
    cases prev with
    | none =>
      obtain ⟨h1, h3⟩ := chainedB_cons_none.mp h
      simp only [List.cons_append, verifyFrom, h1, ne_eq, not_true_eq_false,
        if_false, ite_false, List.append_eq]
      rw [ih rest h3, hlen]
      rfl
    | some p =>
      obtain ⟨h1, h2, h3⟩ := chainedB_cons_some.mp h
      simp only [List.cons_append, verifyFrom, h1, h2, ne_eq, not_true_eq_false,
        if_false, ite_false, List.append_eq]
      rw [ih rest h3, hlen]
      rfl

/-- An intact chain verifies `secure` from any starting state. -/
lemma verifyFrom_secure {H : String → String} {xs : List Block}
    {prev : Option Block} {i : Nat} (h : chainedB H prev xs = true) :
    verifyFrom H prev i xs = VerifyResult.secure := by
  have := verifyFrom_append (i := i) [] h
  rw [List.append_nil] at this
  rw [this]
  rfl

/-- After an intact prefix, a block whose recomputed digest mismatches is
reported as data tampering at its index — regardless of its link. -/
lemma verifyFrom_tamper {H : String → String} {xs : List Block}
    {prev : Option Block} {i : Nat} {b : Block} (rest : List Block)
    (h : chainedB H prev xs = true) (hb : recomputeHash H b ≠ b.hash) :
    verifyFrom H prev i (xs ++ b :: rest) =
      VerifyResult.compromised (i + xs.length) FailureKind.dataTampering b.id := by
  rw [verifyFrom_append _ h]
  cases hafter : afterChain prev xs <;> simp [verifyFrom, hb]

/-- After an intact prefix ending in `p`, a block with a correct digest but a
`previousHash` that does not match `p.hash` is reported as a chain break at
its index. -/
lemma verifyFrom_break {H : String → String} {xs : List Block}
    {prev : Option Block} {i : Nat} {b p : Block} (rest : List Block)
    (h : chainedB H prev xs = true) (hafter : afterChain prev xs = some p)
    (hb : recomputeHash H b = b.hash) (hlink : b.previousHash ≠ p.hash) :
    verifyFrom H prev i (xs ++ b :: rest) =
      VerifyResult.compromised (i + xs.length) FailureKind.chainBreak b.id := by
  rw [verifyFrom_append _ h, hafter]
  simp [verifyFrom, hb, hlink]

/-- Splitting an intact walk. -/
lemma chainedB_append {H : String → String} :
    ∀ {xs ys : List Block} {prev : Option Block},
    chainedB H prev (xs ++ ys) = true →
    chainedB H prev xs = true ∧ chainedB H (afterChain prev xs) ys = true := by
  intro xs
  induction xs with
  | nil => intro ys prev h; exact ⟨rfl, h⟩
  | cons b bs ih =>
    intro ys prev h
    cases prev with
    | none =>
      obtain ⟨h1, h3⟩ := chainedB_cons_none.mp h
      obtain ⟨ha, hb⟩ := ih h3
      exact ⟨chainedB_cons_none.mpr ⟨h1, ha⟩, hb⟩
    | some p =>
      obtain ⟨h1, h2, h3⟩ := chainedB_cons_some.mp h
      obtain ⟨ha, hb⟩ := ih h3
      exact ⟨chainedB_cons_some.mpr ⟨h1, h2, ha⟩, hb⟩

/-- Appending one correctly-digested, correctly-linked block keeps the walk
intact. -/
lemma chainedB_append_one {H : String → String} {store : List Block} {b : Block}
    {prev : Option Block} (h : chainedB H prev store = true)
    (hhash : recomputeHash H b = b.hash)
    (hlink : ∀ p, afterChain prev store = some p → b.previousHash = p.hash) :
    chainedB H prev (store ++ [b]) = true := by
  induction store generalizing prev with
  | nil =>
    cases prev with
    | none => simp [chainedB, hhash]
    | some p => exact chainedB_cons_some.mpr ⟨hhash, hlink p rfl, rfl⟩
  | cons c cs ih =>
    cases prev with
    | none =>
      obtain ⟨h1, h3⟩ := chainedB_cons_none.mp h
      exact chainedB_cons_none.mpr ⟨h1, ih h3 hlink⟩
    | some p =>
      obtain ⟨h1, h2, h3⟩ := chainedB_cons_some.mp h
      exact chainedB_cons_some.mpr ⟨h1, h2, ih h3 hlink⟩

/-! ## The append service preserves the store invariant -/

/-- The append and verify paths serialize the same six fields identically:
a fully-present block-data object stringifies to exactly the append-time
canonical string. -/
lemma appendEncode_eq_stringify (t u a m d p : String) :
    appendEncode t u a m d p =
      stringifyBlockData ⟨t, some u, some a, some m, some d, p⟩ := rfl

/-- The block `logAction` persists when the store is `store` and the captured
timestamp is `now`. -/
def mkBlock (H : String → String) (now : String) (c : LogCall)
    (store : List Block) : Block :=
  ⟨store.length, now, some c.user, some c.action, some c.module,
   some c.description,
   H (appendEncode now c.user c.action c.module c.description (tipHash store)),
   tipHash store⟩

lemma logActionBody_eq (H : String → String) (now : String) (c : LogCall)
    (store : List Block) :
    logActionBody H now c store =
      if store.any fun b => b.hash == (mkBlock H now c store).hash then
        Except.error "E11000 duplicate key"
      else Except.ok (store ++ [mkBlock H now c store]) := rfl

lemma logAction_eq (H : String → String) (now : String) (c : LogCall)
    (store : List Block) :
    logAction H now c store =
      if store.any fun b => b.hash == (mkBlock H now c store).hash then store
      else store ++ [mkBlock H now c store] := by
  rw [logAction, logActionBody_eq]
  by_cases h : (store.any fun b => b.hash == (mkBlock H now c store).hash) = true
  · rw [if_pos h, if_pos h]
  · rw [if_neg h, if_neg h]

lemma storeInvB_iff {H : String → String} {store : List Block} :
    storeInvB H store = true ↔
      tsSortedB store = true ∧ chainedB H none store = true ∧
        hashesNodupB store = true ∧
        (∀ b, store.head? = some b → b.previousHash = GENESIS) := by
  cases store with
  | nil => simp [storeInvB, and_assoc]
  | cons a rest =>
    simp [storeInvB, Bool.and_eq_true, and_assoc]

lemma tsSortedB_append_one {l : List Block} {b : Block}
    (hs : tsSortedB l = true) (hb : tsBelowB l b.timestamp = true) :
    tsSortedB (l ++ [b]) = true := by
  induction l with
  | nil => rfl
  | cons a rest ih =>
    simp only [tsBelowB, List.all_cons, Bool.and_eq_true] at hb
    cases rest with
    | nil =>
      show (tsLt a.timestamp b.timestamp && tsSortedB [b]) = true
      simp [hb.1, tsSortedB]
    | cons a' rest' =>
      have h1 : tsLt a.timestamp a'.timestamp = true := tsSortedB_head hs rfl
      have h2 := ih (tsSortedB_tail hs) (by simpa [tsBelowB] using hb.2)
      simp only [List.cons_append] at h2
      show (tsLt a.timestamp a'.timestamp && tsSortedB (a' :: (rest' ++ [b]))) = true
      simp [h1, h2]

lemma hashesNodupB_append_one {l : List Block} {b : Block}
    (h : hashesNodupB l = true) (hb : (l.any fun c => c.hash == b.hash) = false) :
    hashesNodupB (l ++ [b]) = true := by
  induction l with
  | nil => rfl
  | cons a rest ih =>
    simp only [List.any_cons, Bool.or_eq_false_iff] at hb
    simp only [hashesNodupB, Bool.and_eq_true, Bool.not_eq_true'] at h
    have ihr := ih h.2 hb.2
    have hba : (b.hash == a.hash) = false := by
      have hne : ¬ a.hash = b.hash := by
        intro he
        have h1 := hb.1
        rw [he] at h1
        simp at h1
      simp only [beq_eq_false_iff_ne, ne_eq]
      exact fun he => hne he.symm
    show (!((rest ++ [b]).any fun c => c.hash == a.hash) &&
      hashesNodupB (rest ++ [b])) = true
    rw [Bool.and_eq_true, Bool.not_eq_true', List.any_append]
    exact ⟨by simp [h.1, hba], ihr⟩

/-- One `logAction` call preserves the store invariant, and every block of the
resulting store is either an old block or carries the captured timestamp. -/
lemma storeInv_step {H : String → String} {now : String} {c : LogCall}
    {store : List Block} (hinv : storeInvB H store = true)
    (hts : tsBelowB store now = true) :
    storeInvB H (logAction H now c store) = true ∧
      ∀ b' ∈ logAction H now c store, b' ∈ store ∨ b'.timestamp = now := by
  rw [logAction_eq]
  by_cases hdup : (store.any fun b => b.hash == (mkBlock H now c store).hash) = true
  · rw [if_pos hdup]
    exact ⟨hinv, fun b' hb' => Or.inl hb'⟩
  · rw [if_neg hdup]
    have hdup' : (store.any fun b => b.hash == (mkBlock H now c store).hash) = false :=
      Bool.eq_false_iff.mpr hdup
    obtain ⟨hsort, hchain, hnodup, hgen⟩ := storeInvB_iff.mp hinv
    refine ⟨storeInvB_iff.mpr ⟨?_, ?_, ?_, ?_⟩, ?_⟩
    · exact tsSortedB_append_one hsort hts
    · refine chainedB_append_one hchain rfl ?_
      intro p hp
      rw [afterChain_none] at hp
      show tipHash store = p.hash
      rw [tipHash, getTip_of_sorted hsort, hp]
    · exact hashesNodupB_append_one hnodup hdup'
    · cases store with
      | nil =>
        intro b hb
        simp only [List.nil_append, List.head?] at hb
        cases hb
        rfl
      | cons a rest =>
        intro b hb
        simp only [List.cons_append, List.head?] at hb
        cases hb
        exact hgen a rfl
    · intro b' hb'
      rcases List.mem_append.mp hb' with hold | hnew
      · exact Or.inl hold
      · right
        rw [List.mem_singleton.mp hnew]
        rfl

/-- Any serial sequence of `logAction` calls with strictly increasing captured
timestamps preserves the store invariant. -/
theorem storeInv_logActions {H : String → String} :
    ∀ {calls : List (String × LogCall)} {store : List Block},
    storeInvB H store = true → nowsSortedB calls = true →
    (∀ p ∈ calls, tsBelowB store p.1 = true) →
    storeInvB H (logActions H calls store) = true := by
  intro calls
  induction calls with
  | nil => intro store hinv _ _; exact hinv
  | cons pc rest ih =>
    intro store hinv hc hb
    obtain ⟨now, c⟩ := pc
    simp only [nowsSortedB, Bool.and_eq_true, List.all_eq_true] at hc
    have hts : tsBelowB store now = true := hb (now, c) (List.mem_cons_self _ _)
    obtain ⟨hinv', hmem⟩ := storeInv_step (c := c) hinv hts
    refine ih hinv' hc.2 ?_
    intro p hp
    simp only [tsBelowB, List.all_eq_true]
    intro b' hb'
    rcases hmem b' hb' with hold | hnow
    · have := hb p (List.mem_cons_of_mem _ hp)
      simp only [tsBelowB, List.all_eq_true] at this
      exact this b' hold
    · rw [hnow]
      exact hc.1 p hp

/-- The empty store satisfies the invariant. -/
lemma storeInv_nil {H : String → String} : storeInvB H [] = true := rfl

/-- The store invariant makes the verify endpoint report `secure`. -/
theorem secure_of_storeInv {H : String → String} {store : List Block}
    (hinv : storeInvB H store = true) :
    verifyChainIntegrity H store = VerifyResult.secure := by
  obtain ⟨hsort, hchain, -, -⟩ := storeInvB_iff.mp hinv
  rw [verifyChainIntegrity, verifyBlocks, sortAsc_of_sorted hsort]
  exact verifyFrom_secure hchain

/-! ## The canonical encoding is injective

A decoder inverts `jsonObject`/`jsonEscape`, so two distinct block-data
objects can never canonically encode to the same string. This is what makes
"the recomputed digest differs" equivalent to "the stored fields changed",
modulo digest collisions. -/

/-- Inverse of the two-character JSON escapes. -/
def unescChar (e : Char) : Option Char :=
  if e = '"' then some '"'
  else if e = '\\' then some '\\'
  else if e = 'b' then some (Char.ofNat 8)
  else if e = 't' then some (Char.ofNat 9)
  else if e = 'n' then some (Char.ofNat 10)
  else if e = 'f' then some (Char.ofNat 12)
  else if e = 'r' then some (Char.ofNat 13)
  else none

/-- Inverse of `hexDigit`. -/
def parseHexDigit (c : Char) : Option Nat :=
  if 48 ≤ c.toNat ∧ c.toNat ≤ 57 then some (c.toNat - 48)
  else if 97 ≤ c.toNat ∧ c.toNat ≤ 102 then some (c.toNat - 87)
  else none

/-- Parse an escaped JSON string body up to and past its closing quote,
returning the decoded content and the remaining input. -/
def parseStr : Nat → List Char → Option (List Char × List Char)
  | 0, _ => none
  | _ + 1, [] => none
  | fuel + 1, c :: rest =>
    if c = '"' then some ([], rest)
    else if c = '\\' then
      match rest with
      | [] => none
      | e :: rest2 =>
        if e = 'u' then
          match rest2 with
          | h1 :: h2 :: h3 :: h4 :: rest3 =>
            match parseHexDigit h1, parseHexDigit h2, parseHexDigit h3,
                parseHexDigit h4 with
            | some d1, some d2, some d3, some d4 =>
              (parseStr fuel rest3).map fun sr =>
                (Char.ofNat (d1 * 4096 + d2 * 256 + d3 * 16 + d4) :: sr.1, sr.2)
            | _, _, _, _ => none
          | _ => none
        else
          match unescChar e with
          | some c2 => (parseStr fuel rest2).map fun sr => (c2 :: sr.1, sr.2)
          | none => none
    else (parseStr fuel rest).map fun sr => (c :: sr.1, sr.2)

/-- Parse the members of a JSON object after its opening brace. -/
def parseMembers : Nat → List Char → Option (List (String × String))
  | 0, _ => none
  | fuel + 1, input =>
    match input with
    | '"' :: rest =>
      match parseStr rest.length rest with
      | none => none
      | some (k, rem1) =>
        match rem1 with
        | ':' :: '"' :: rem2 =>
          match parseStr rem2.length rem2 with
          | none => none
          | some (v, rem3) =>
            match rem3 with
            | ',' :: rem4 =>
              (parseMembers fuel rem4).map fun ms => (⟨k⟩, ⟨v⟩) :: ms
            | ['\x7d'] => some [(⟨k⟩, ⟨v⟩)]
            | _ => none
        | _ => none
    | _ => none

/-- Parse a whole JSON object with at least one member. -/
def parseObject (s : String) : Option (List (String × String)) :=
  match s.data with
  | '\x7b' :: rest => parseMembers rest.length rest
  | _ => none

lemma parseHexDigit_hexDigit {d : Nat} (h : d < 16) :
    parseHexDigit (hexDigit d) = some d := by
  interval_cases d <;> rfl

lemma jsonEscapeChar_length_pos (c : Char) : 1 ≤ (jsonEscapeChar c).length := by
  rw [jsonEscapeChar]
  split
  · simp
  · split
    · simp
    · split
      · simp
      · split
        · simp
        · split
          · simp
          · split
            · simp
            · split
              · simp
              · split
                · simp [hex4]
                · simp

/-- Round trip: parsing undoes escaping, for every string and every
continuation of the input. -/
lemma parseStr_escape : ∀ (s : List Char) (rest : List Char) (fuel : Nat),
    (jsonEscape s).length + 1 ≤ fuel →
    parseStr fuel (jsonEscape s ++ '"' :: rest) = some (s, rest) := by
  intro s
  induction s with
  | nil =>
    intro rest fuel hfuel
    match fuel, hfuel with
    | f + 1, _ => rfl
  | cons c cs ih =>
    intro rest fuel hfuel
    have hesc : jsonEscape (c :: cs) = jsonEscapeChar c ++ jsonEscape cs := by
      simp [jsonEscape]
    rw [hesc] at hfuel ⊢
    rw [jsonEscapeChar] at hfuel ⊢
    by_cases h1 : c = '"'
    · rw [if_pos h1] at hfuel ⊢
      subst h1
      match fuel, hfuel with
      | f + 1, hfuel =>
        have hf : (jsonEscape cs).length + 1 ≤ f := by
          simp only [List.length_append, List.length_cons] at hfuel
          omega
        simp only [List.cons_append, List.nil_append]
        have step : parseStr (f + 1) ('\\' :: '"' :: (jsonEscape cs ++ '"' :: rest)) =
            (parseStr f (jsonEscape cs ++ '"' :: rest)).map
              (fun sr => ('"' :: sr.1, sr.2)) := rfl
        rw [step, ih rest f hf]
        rfl
    · rw [if_neg h1] at hfuel ⊢
      by_cases h2 : c = '\\'
      · rw [if_pos h2] at hfuel ⊢
        subst h2
        match fuel, hfuel with
        | f + 1, hfuel =>
          have hf : (jsonEscape cs).length + 1 ≤ f := by
            simp only [List.length_append, List.length_cons] at hfuel
            omega
          simp only [List.cons_append, List.nil_append]
          have step : parseStr (f + 1) ('\\' :: '\\' :: (jsonEscape cs ++ '"' :: rest)) =
              (parseStr f (jsonEscape cs ++ '"' :: rest)).map
                (fun sr => ('\\' :: sr.1, sr.2)) := rfl
          rw [step, ih rest f hf]
          rfl
      · rw [if_neg h2] at hfuel ⊢
        by_cases h3 : c = Char.ofNat 8
        · rw [if_pos h3] at hfuel ⊢
          subst h3
          match fuel, hfuel with
          | f + 1, hfuel =>
            have hf : (jsonEscape cs).length + 1 ≤ f := by
              simp only [List.length_append, List.length_cons] at hfuel
              omega
            simp only [List.cons_append, List.nil_append]
            have step : parseStr (f + 1) ('\\' :: 'b' :: (jsonEscape cs ++ '"' :: rest)) =
                (parseStr f (jsonEscape cs ++ '"' :: rest)).map
                  (fun sr => (Char.ofNat 8 :: sr.1, sr.2)) := rfl
            rw [step, ih rest f hf]
            rfl
        · rw [if_neg h3] at hfuel ⊢
          by_cases h4 : c = Char.ofNat 9
          · rw [if_pos h4] at hfuel ⊢
            subst h4
            match fuel, hfuel with
            | f + 1, hfuel =>
              have hf : (jsonEscape cs).length + 1 ≤ f := by
                simp only [List.length_append, List.length_cons] at hfuel
                omega
              simp only [List.cons_append, List.nil_append]
              have step : parseStr (f + 1) ('\\' :: 't' :: (jsonEscape cs ++ '"' :: rest)) =
                  (parseStr f (jsonEscape cs ++ '"' :: rest)).map
                    (fun sr => (Char.ofNat 9 :: sr.1, sr.2)) := rfl
              rw [step, ih rest f hf]
              rfl
          · rw [if_neg h4] at hfuel ⊢
            by_cases h5 : c = Char.ofNat 10
            · rw [if_pos h5] at hfuel ⊢
              subst h5
              match fuel, hfuel with
              | f + 1, hfuel =>
                have hf : (jsonEscape cs).length + 1 ≤ f := by
                  simp only [List.length_append, List.length_cons] at hfuel
                  omega
                simp only [List.cons_append, List.nil_append]
                have step : parseStr (f + 1) ('\\' :: 'n' :: (jsonEscape cs ++ '"' :: rest)) =
                    (parseStr f (jsonEscape cs ++ '"' :: rest)).map
                      (fun sr => (Char.ofNat 10 :: sr.1, sr.2)) := rfl
                rw [step, ih rest f hf]
                rfl
            · rw [if_neg h5] at hfuel ⊢
              by_cases h6 : c = Char.ofNat 12
              · rw [if_pos h6] at hfuel ⊢
                subst h6
                match fuel, hfuel with
                | f + 1, hfuel =>
                  have hf : (jsonEscape cs).length + 1 ≤ f := by
                    simp only [List.length_append, List.length_cons] at hfuel
                    omega
                  simp only [List.cons_append, List.nil_append]
                  have step : parseStr (f + 1) ('\\' :: 'f' :: (jsonEscape cs ++ '"' :: rest)) =
                      (parseStr f (jsonEscape cs ++ '"' :: rest)).map
                        (fun sr => (Char.ofNat 12 :: sr.1, sr.2)) := rfl
                  rw [step, ih rest f hf]
                  rfl
              · rw [if_neg h6] at hfuel ⊢
                by_cases h7 : c = Char.ofNat 13
                · rw [if_pos h7] at hfuel ⊢
                  subst h7
                  match fuel, hfuel with
                  | f + 1, hfuel =>
                    have hf : (jsonEscape cs).length + 1 ≤ f := by
                      simp only [List.length_append, List.length_cons] at hfuel
                      omega
                    simp only [List.cons_append, List.nil_append]
                    have step : parseStr (f + 1) ('\\' :: 'r' :: (jsonEscape cs ++ '"' :: rest)) =
                        (parseStr f (jsonEscape cs ++ '"' :: rest)).map
                          (fun sr => (Char.ofNat 13 :: sr.1, sr.2)) := rfl
                    rw [step, ih rest f hf]
                    rfl
                · rw [if_neg h7] at hfuel ⊢
                  by_cases h8 : c.toNat < 32
                  · rw [if_pos h8] at hfuel ⊢
                    match fuel, hfuel with
                    | f + 1, hfuel =>
                      have hf : (jsonEscape cs).length + 1 ≤ f := by
                        simp only [List.length_append, List.length_cons, hex4,
                          List.length_nil] at hfuel
                        omega
                      have hd1 : c.toNat / 4096 % 16 < 16 := Nat.mod_lt _ (by omega)
                      have hd2 : c.toNat / 256 % 16 < 16 := Nat.mod_lt _ (by omega)
                      have hd3 : c.toNat / 16 % 16 < 16 := Nat.mod_lt _ (by omega)
                      have hd4 : c.toNat % 16 < 16 := Nat.mod_lt _ (by omega)
                      simp only [hex4, List.cons_append, List.nil_append]
                      have step : ∀ (a b d e : Char) (X : List Char),
                          parseStr (f + 1) ('\\' :: 'u' :: a :: b :: d :: e :: X) =
                            (match parseHexDigit a, parseHexDigit b, parseHexDigit d,
                                parseHexDigit e with
                             | some d1, some d2, some d3, some d4 =>
                                 (parseStr f X).map fun sr =>
                                   (Char.ofNat (d1 * 4096 + d2 * 256 + d3 * 16 + d4) :: sr.1,
                                    sr.2)
                             | _, _, _, _ => none) := fun a b d e X => rfl
                      rw [step, parseHexDigit_hexDigit hd1, parseHexDigit_hexDigit hd2,
                        parseHexDigit_hexDigit hd3, parseHexDigit_hexDigit hd4]
                      rw [ih rest f hf]
                      show some (Char.ofNat (c.toNat / 4096 % 16 * 4096 +
                        c.toNat / 256 % 16 * 256 + c.toNat / 16 % 16 * 16 + c.toNat % 16) ::
                        cs, rest) = some (c :: cs, rest)
                      have hval : c.toNat / 4096 % 16 * 4096 + c.toNat / 256 % 16 * 256 +
                          c.toNat / 16 % 16 * 16 + c.toNat % 16 = c.toNat := by omega
                      rw [hval, Char.ofNat_toNat]
                  · rw [if_neg h8] at hfuel ⊢
                    match fuel, hfuel with
                    | f + 1, hfuel =>
                      have hf : (jsonEscape cs).length + 1 ≤ f := by
                        simp only [List.length_append, List.length_cons] at hfuel
                        omega
                      simp only [List.cons_append, List.nil_append]
                      simp only [parseStr]
                      rw [if_neg h1, if_neg h2]
                      rw [ih rest f hf]
                      rfl

/-- Stepping the member parser over one encoded `"key":"value"` member. -/
lemma parseMembers_step (f : Nat) (k v : List Char) (tail : List Char) :
    parseMembers (f + 1)
      ('"' :: (jsonEscape k ++ '"' :: ':' :: '"' :: (jsonEscape v ++ '"' :: tail))) =
      match tail with
      | ',' :: rem4 => (parseMembers f rem4).map fun ms => (⟨k⟩, ⟨v⟩) :: ms
      | ['\x7d'] => some [(⟨k⟩, ⟨v⟩)]
      | _ => none := by
  have h2 : parseStr (jsonEscape v ++ '"' :: tail).length
      (jsonEscape v ++ '"' :: tail) = some (v, tail) := by
    apply parseStr_escape
    simp only [List.length_append, List.length_cons]
    omega
  have h1 : parseStr (jsonEscape k ++ '"' :: ':' :: '"' ::
        (jsonEscape v ++ '"' :: tail)).length
      (jsonEscape k ++ '"' :: ':' :: '"' :: (jsonEscape v ++ '"' :: tail)) =
      some (k, ':' :: '"' :: (jsonEscape v ++ '"' :: tail)) := by
    apply parseStr_escape
    simp only [List.length_append, List.length_cons]
    omega
  simp only [parseMembers, h1, h2]

/-- Stepping over the last member of an object. -/
lemma parseMembers_step_last (f : Nat) (k v : List Char) :
    parseMembers (f + 1)
      ('"' :: (jsonEscape k ++ '"' :: ':' :: '"' ::
        (jsonEscape v ++ '"' :: ['\x7d']))) = some [(⟨k⟩, ⟨v⟩)] := by
  rw [parseMembers_step]
  rfl

/-- Stepping over a non-last member of an object. -/
lemma parseMembers_step_cont (f : Nat) (k v : List Char) (rem : List Char) :
    parseMembers (f + 1)
      ('"' :: (jsonEscape k ++ '"' :: ':' :: '"' ::
        (jsonEscape v ++ '"' :: ',' :: rem))) =
      (parseMembers f rem).map fun ms => (⟨k⟩, ⟨v⟩) :: ms := by
  rw [parseMembers_step]
  rfl

lemma jsonMember_length_pos (k v : String) : 1 ≤ (jsonMember k v).length := by
  simp [jsonMember, jsonString]

lemma joinComma_length_ge : ∀ (ms : List (List Char)),
    (∀ m ∈ ms, 1 ≤ m.length) → ms.length ≤ (joinComma ms).length
  | [], _ => by simp [joinComma]
  | [m], h => by
    simpa [joinComma] using h m (by simp)
  | m :: m2 :: rest, h => by
    have ih := joinComma_length_ge (m2 :: rest) fun x hx => h x (by simp [hx])
    have hm := h m (by simp)
    simp only [joinComma, List.length_append, List.length_cons] at ih ⊢
    omega

/-- Parsing undoes the member encoding for any nonempty member list. -/
lemma parseMembers_roundtrip : ∀ (kvs : List (String × String)) (fuel : Nat),
    kvs ≠ [] → kvs.length ≤ fuel →
    parseMembers fuel
      (joinComma (kvs.map fun kv => jsonMember kv.1 kv.2) ++ ['\x7d']) =
      some kvs := by
  intro kvs
  induction kvs with
  | nil => intro fuel h _; exact absurd rfl h
  | cons kv rest ih =>
    intro fuel _ hlen
    match fuel, hlen with
    | f + 1, hlen =>
      obtain ⟨k, v⟩ := kv
      cases rest with
      | nil =>
        have hshape :
            joinComma ([((k : String), (v : String))].map fun kv =>
              jsonMember kv.1 kv.2) ++ ['\x7d'] =
            '"' :: (jsonEscape k.data ++ '"' :: ':' :: '"' ::
              (jsonEscape v.data ++ '"' :: ['\x7d'])) := by
          simp [joinComma, jsonMember, jsonString]
        rw [hshape, parseMembers_step_last]
      | cons kv2 rest2 =>
        have hshape :
            joinComma (((k, v) :: kv2 :: rest2).map fun kv =>
              jsonMember kv.1 kv.2) ++ ['\x7d'] =
            '"' :: (jsonEscape k.data ++ '"' :: ':' :: '"' ::
              (jsonEscape v.data ++ '"' :: ',' ::
                (joinComma ((kv2 :: rest2).map fun kv =>
                  jsonMember kv.1 kv.2) ++ ['\x7d']))) := by
          simp [joinComma, jsonMember, jsonString]
        rw [hshape, parseMembers_step_cont]
        rw [ih f (by simp) (by simp only [List.length_cons] at hlen ⊢; omega)]
        rfl

lemma blockDataMembers_ne_nil (d : BlockData) : blockDataMembers d ≠ [] := by
  have h : blockDataMembers d = ("timestamp", d.timestamp) ::
      List.filterMap (fun kv => kv.2.map fun v => (kv.1, v))
        [("user", d.user), ("action", d.action), ("module", d.module),
         ("description", d.description), ("previousHash", some d.previousHash)] :=
    rfl
  rw [h]
  exact List.cons_ne_nil _ _

/-- Parsing undoes `jsonObject` for any nonempty member list. -/
lemma parseObject_jsonObject (kvs : List (String × String)) (hne : kvs ≠ []) :
    parseObject (jsonObject kvs) = some kvs := by
  have hrest : parseObject (jsonObject kvs) =
      parseMembers
        (joinComma (kvs.map fun kv => jsonMember kv.1 kv.2) ++ ['\x7d']).length
        (joinComma (kvs.map fun kv => jsonMember kv.1 kv.2) ++ ['\x7d']) := rfl
  rw [hrest]
  apply parseMembers_roundtrip _ _ hne
  have hjoin := joinComma_length_ge (kvs.map fun kv => jsonMember kv.1 kv.2)
    (by
      intro m hm
      obtain ⟨kv, -, rfl⟩ := List.mem_map.mp hm
      exact jsonMember_length_pos kv.1 kv.2)
  simp only [List.length_map] at hjoin
  simp only [List.length_append, List.length_cons, List.length_nil]
  omega

/-- Remove a leading member with key `k`, if present. -/
def takeOpt (k : String) : List (String × String) →
    Option String × List (String × String)
  | [] => (none, [])
  | (k2, v) :: rest => if k2 = k then (some v, rest) else (none, (k2, v) :: rest)

/-- Recover the block-data object from its member list. -/
def membersToData (ms : List (String × String)) : Option BlockData :=
  match ms with
  | ("timestamp", t) :: ms1 =>
    let r1 := takeOpt "user" ms1
    let r2 := takeOpt "action" r1.2
    let r3 := takeOpt "module" r2.2
    let r4 := takeOpt "description" r3.2
    (match r4.2 with
     | [("previousHash", p)] => some ⟨t, r1.1, r2.1, r3.1, r4.1, p⟩
     | _ => none)
  | _ => none

lemma membersToData_roundtrip (d : BlockData) :
    membersToData (blockDataMembers d) = some d := by
  obtain ⟨t, u, a, m, dd, p⟩ := d
  cases u <;> cases a <;> cases m <;> cases dd <;> rfl

/-- The canonical encoding is injective: distinct stored field sets always
produce distinct canonical strings. -/
theorem stringifyBlockData_injective : Function.Injective stringifyBlockData := by
  intro d1 d2 h
  have h1 := congrArg parseObject h
  simp only [stringifyBlockData] at h1
  rw [parseObject_jsonObject _ (blockDataMembers_ne_nil d1),
    parseObject_jsonObject _ (blockDataMembers_ne_nil d2)] at h1
  have h2 := congrArg membersToData (Option.some.inj h1)
  rw [membersToData_roundtrip, membersToData_roundtrip] at h2
  exact Option.some.inj h2

/-! ## Shape of the digest output -/

lemma compressBlock_length (hv block : List Nat) :
    (compressBlock hv block).length = 8 := rfl

lemma sha256Blocks_length : ∀ (fuel : Nat) (hv bytes : List Nat),
    hv.length = 8 → (sha256Blocks fuel hv bytes).length = 8
  | 0, _, _, h => h
  | _ + 1, _, [], h => h
  | f + 1, hv, b :: bs, _ => by
      show (sha256Blocks f (compressBlock hv ((b :: bs).take 64))
        ((b :: bs).drop 64)).length = 8
      exact sha256Blocks_length f _ _ (compressBlock_length _ _)

lemma sha256Words_length (msg : List Nat) : (sha256Words msg).length = 8 :=
  sha256Blocks_length _ _ _ rfl

lemma flatMap_wordBytes_length : ∀ (l : List Nat),
    (l.flatMap wordBytes).length = 4 * l.length
  | [] => rfl
  | x :: xs => by
      show (wordBytes x ++ xs.flatMap wordBytes).length = 4 * (x :: xs).length
      rw [List.length_append, flatMap_wordBytes_length xs]
      simp [wordBytes, List.length_cons]
      omega

lemma sha256_length (msg : List Nat) : (sha256 msg).length = 32 := by
  rw [sha256, flatMap_wordBytes_length, sha256Words_length]

lemma flatMap_byteHex_length : ∀ (l : List Nat),
    (l.flatMap byteHex).length = 2 * l.length
  | [] => rfl
  | x :: xs => by
      show (byteHex x ++ xs.flatMap byteHex).length = 2 * (x :: xs).length
      rw [List.length_append, flatMap_byteHex_length xs]
      simp [byteHex, List.length_cons]
      omega

/-- A SHA-256 hex digest is always 64 characters long. -/
lemma sha256hex_length (s : String) : (sha256hex s).length = 64 := by
  show ((sha256 (utf8Bytes s)).flatMap byteHex).length = 64
  rw [flatMap_byteHex_length, sha256_length]

/-- The characters the hex encoder can emit: a decimal digit or one of the
lowercase letters a through f. -/
def isLowerHexDigit (c : Char) : Bool :=
  (48 ≤ c.toNat && c.toNat ≤ 57) || (97 ≤ c.toNat && c.toNat ≤ 102)

lemma hexDigit_isLowerHexDigit {d : Nat} (h : d < 16) :
    isLowerHexDigit (hexDigit d) = true := by
  interval_cases d <;> rfl

lemma byteHex_all_lower (b : Nat) :
    (byteHex b).all isLowerHexDigit = true := by
  have h1 := hexDigit_isLowerHexDigit (d := b / 16 % 16) (Nat.mod_lt _ (by omega))
  have h2 := hexDigit_isLowerHexDigit (d := b % 16) (Nat.mod_lt _ (by omega))
  simp [byteHex, h1, h2]

lemma flatMap_byteHex_all_lower : ∀ (l : List Nat),
    ((l.flatMap byteHex).all isLowerHexDigit) = true
  | [] => rfl
  | x :: xs => by
      show ((byteHex x ++ xs.flatMap byteHex).all isLowerHexDigit) = true
      rw [List.all_append, byteHex_all_lower, flatMap_byteHex_all_lower xs]
      rfl

/-- Every SHA-256 hex digest consists of lowercase hex characters only. -/
lemma sha256hex_all_lower (s : String) :
    (sha256hex s).data.all isLowerHexDigit = true :=
  flatMap_byteHex_all_lower _

/-- A digest (64 characters) can never equal the 32-character genesis
constant, so no real block's digest collides with `GENESIS`. -/
lemma sha256hex_ne_GENESIS (s : String) : sha256hex s ≠ GENESIS := by
  intro h
  have hlen := congrArg String.length h
  rw [sha256hex_length] at hlen
  have : GENESIS.length = 32 := rfl
  rw [this] at hlen
  exact absurd hlen (by decide)

/-! ## Support lemmas for the tampering and break theorems -/

lemma not_not_bool {a b : String} (h : ¬ a ≠ b) : a = b := not_not.mp h

/-- Distinct digests across a split of a nodup store. -/
lemma hashesNodupB_split : ∀ {xs ys : List Block},
    hashesNodupB (xs ++ ys) = true → ∀ x ∈ xs, ∀ y ∈ ys, x.hash ≠ y.hash := by
  intro xs
  induction xs with
  | nil => intro ys _ x hx; simp at hx
  | cons a rest ih =>
    intro ys h x hx y hy
    simp only [List.cons_append, hashesNodupB, Bool.and_eq_true,
      Bool.not_eq_true', List.append_eq] at h
    rcases List.mem_cons.mp hx with rfl | hx'
    · intro he
      have hmem : y ∈ rest ++ ys := List.mem_append.mpr (Or.inr hy)
      have hany : ((rest ++ ys).any fun c => c.hash == x.hash) = true := by
        apply List.any_eq_true.mpr
        exact ⟨y, hmem, beq_iff_eq.mpr he.symm⟩
      have hfalse := h.1
      rw [hany] at hfalse
      exact absurd hfalse (by simp)
    · exact ih h.2 x hx' y hy

lemma afterChain_some : ∀ (l : List Block) (p : Block),
    ∃ q, afterChain (some p) l = some q ∧ (q ∈ l ∨ q = p)
  | [], p => ⟨p, rfl, Or.inr rfl⟩
  | b :: bs, p => by
    obtain ⟨q, hq, hmem⟩ := afterChain_some bs b
    refine ⟨q, hq, ?_⟩
    rcases hmem with h | rfl
    · exact Or.inl (List.mem_cons_of_mem _ h)
    · exact Or.inl (List.mem_cons_self _ _)

lemma tsSortedB_cons_of {a : Block} {l : List Block} (hl : tsSortedB l = true)
    (ha : ∀ c, l.head? = some c → tsLt a.timestamp c.timestamp = true) :
    tsSortedB (a :: l) = true := by
  cases l with
  | nil => rfl
  | cons c cs =>
    show (tsLt a.timestamp c.timestamp && tsSortedB (c :: cs)) = true
    rw [Bool.and_eq_true]
    exact ⟨ha c rfl, hl⟩

/-- Deleting one block from a sorted sequence leaves it sorted. -/
lemma tsSortedB_delete_middle : ∀ {l1 : List Block} {b : Block}
    {rest : List Block}, tsSortedB (l1 ++ b :: rest) = true →
    tsSortedB (l1 ++ rest) = true := by
  intro l1
  induction l1 with
  | nil => intro b rest h; exact tsSortedB_tail h
  | cons a l1' ih =>
    intro b rest h
    simp only [List.cons_append] at h ⊢
    refine tsSortedB_cons_of (ih (tsSortedB_tail h)) ?_
    intro c hc
    cases hl1' : l1' with
    | cons x xs =>
      subst hl1'
      simp only [List.cons_append, List.head?] at hc
      cases hc
      exact tsSortedB_head h rfl
    | nil =>
      subst hl1'
      simp only [List.nil_append] at hc ⊢
      have hab : tsLt a.timestamp b.timestamp = true := tsSortedB_head h rfl
      have hb : tsSortedB (b :: rest) = true := tsSortedB_tail h
      cases rest with
      | nil => simp at hc
      | cons r rs =>
        simp only [List.head?] at hc
        cases hc
        exact tsLt_trans hab (tsSortedB_head hb rfl)

/-- Every non-oldest block of an intact walk links to the recomputed digest of
some block of the walk. -/
lemma chained_tail_prev {H : String → String} :
    ∀ (l : List Block) (p : Block), recomputeHash H p = p.hash →
    chainedB H (some p) l = true →
    ∀ b ∈ l, ∃ a, b.previousHash = recomputeHash H a := by
  intro l
  induction l with
  | nil => intro p _ _ b hb; simp at hb
  | cons c cs ih =>
    intro p hp h b hb
    obtain ⟨h1, h2, h3⟩ := chainedB_cons_some.mp h
    rcases List.mem_cons.mp hb with rfl | hb'
    · exact ⟨p, by rw [h2, hp]⟩
    · exact ih c h1 h3 b hb'

lemma chainedB_linkedB {H : String → String} :
    ∀ (l : List Block) (prev : Option Block),
    chainedB H prev l = true → linkedB l = true
  | [], _, _ => rfl
  | [_], _, _ => rfl
  | x :: y :: rest, prev, h => by
    have hx : chainedB H (some x) (y :: rest) = true := by
      cases prev with
      | none => exact (chainedB_cons_none.mp h).2
      | some p => exact (chainedB_cons_some.mp h).2.2
    obtain ⟨h1, h2, h3⟩ := chainedB_cons_some.mp hx
    show (y.previousHash == x.hash && linkedB (y :: rest)) = true
    rw [Bool.and_eq_true]
    exact ⟨beq_iff_eq.mpr h2, chainedB_linkedB (y :: rest) (some x) hx⟩

/-- Core detection lemma: replacing one block of an intact chain by a block
with the same stored digest but different hashable data is reported as data
tampering at that block's position, provided the digest function does not
collide on the two canonical encodings. -/
lemma tamperCore {H : String → String} (hinj : Function.Injective H)
    {l1 l2 : List Block} {b b' : Block}
    (hchain : chainedB H none (l1 ++ b :: l2) = true)
    (hsorted : tsSortedB (l1 ++ b' :: l2) = true)
    (hhash : b'.hash = b.hash)
    (hdiff : blockData b' ≠ blockData b) :
    verifyChainIntegrity H (l1 ++ b' :: l2) =
      VerifyResult.compromised l1.length FailureKind.dataTampering b'.id := by
  obtain ⟨hpre, hmid⟩ := @chainedB_append H l1 (b :: l2) none hchain
  have hOk : recomputeHash H b = b.hash := by
    cases hA : afterChain none l1 with
    | none => rw [hA] at hmid; exact (chainedB_cons_none.mp hmid).1
    | some p => rw [hA] at hmid; exact (chainedB_cons_some.mp hmid).1
  have hb' : recomputeHash H b' ≠ b'.hash := by
    intro he
    apply hdiff
    apply stringifyBlockData_injective
    apply hinj
    show H (stringifyBlockData (blockData b')) = H (stringifyBlockData (blockData b))
    calc H (stringifyBlockData (blockData b')) = b'.hash := he
      _ = b.hash := hhash
      _ = H (stringifyBlockData (blockData b)) := hOk.symm
  rw [verifyChainIntegrity, verifyBlocks, sortAsc_of_sorted hsorted]
  have := verifyFrom_tamper (i := 0) l2 hpre hb'
  rw [Nat.zero_add] at this
  exact this

/-- Once the loop reports a failure at index `i`, only the first `i + 1` walked
blocks matter: any continuation beyond them yields the same report. -/
lemma verifyFrom_take {H : String → String} :
    ∀ (logs : List Block) (prev : Option Block) (j i : Nat) (k : FailureKind)
      (bid : Nat),
    verifyFrom H prev j logs = VerifyResult.compromised i k bid →
    ∃ n, i = j + n ∧ ∀ rest, verifyFrom H prev j (logs.take (n + 1) ++ rest) =
      VerifyResult.compromised i k bid := by
  intro logs
  induction logs with
  | nil => intro prev j i k bid h; simp [verifyFrom] at h
  | cons b bs ih =>
    intro prev j i k bid h
    by_cases ht : recomputeHash H b ≠ b.hash
    · have hres : verifyFrom H prev j (b :: bs) =
          VerifyResult.compromised j FailureKind.dataTampering b.id := by
        cases prev <;> simp [verifyFrom, ht]
      rw [hres] at h
      injection h with h1 h2 h3
      refine ⟨0, by omega, ?_⟩
      intro rest
      have : verifyFrom H prev j ((b :: bs).take 1 ++ rest) =
          VerifyResult.compromised j FailureKind.dataTampering b.id := by
        cases prev <;> simp [verifyFrom, ht]
      rw [this, h1, h2, h3]
    · have ht' : recomputeHash H b = b.hash := not_not.mp ht
      cases prev with
      | none =>
        have hres : verifyFrom H none j (b :: bs) =
            verifyFrom H (some b) (j + 1) bs := by
          simp [verifyFrom, ht']
        rw [hres] at h
        obtain ⟨n, hn, hall⟩ := ih (some b) (j + 1) i k bid h
        refine ⟨n + 1, by omega, ?_⟩
        intro rest
        have hstep : verifyFrom H none j ((b :: bs).take (n + 2) ++ rest) =
            verifyFrom H (some b) (j + 1) (bs.take (n + 1) ++ rest) := by
          simp [verifyFrom, ht', List.take]
        rw [hstep]
        exact hall rest
      | some p =>
        by_cases hl : b.previousHash ≠ p.hash
        · have hres : verifyFrom H (some p) j (b :: bs) =
              VerifyResult.compromised j FailureKind.chainBreak b.id := by
            simp [verifyFrom, ht', hl]
          rw [hres] at h
          injection h with h1 h2 h3
          refine ⟨0, by omega, ?_⟩
          intro rest
          have : verifyFrom H (some p) j ((b :: bs).take 1 ++ rest) =
              VerifyResult.compromised j FailureKind.chainBreak b.id := by
            simp [verifyFrom, ht', hl]
          rw [this, h1, h2, h3]
        · have hl' : b.previousHash = p.hash := not_not.mp hl
          have hres : verifyFrom H (some p) j (b :: bs) =
              verifyFrom H (some b) (j + 1) bs := by
            simp [verifyFrom, ht', hl']
          rw [hres] at h
          obtain ⟨n, hn, hall⟩ := ih (some b) (j + 1) i k bid h
          refine ⟨n + 1, by omega, ?_⟩
          intro rest
          have hstep : verifyFrom H (some p) j ((b :: bs).take (n + 2) ++ rest) =
              verifyFrom H (some b) (j + 1) (bs.take (n + 1) ++ rest) := by
            simp [verifyFrom, ht', hl', List.take]
          rw [hstep]
          exact hall rest

/-! ## Concrete instances -/

set_option maxRecDepth 1000000

/-- A placeholder block for list lookups. -/
def dummyBlock : Block := ⟨0, "", none, none, none, none, "", ""⟩

/-- The three appends of the specification's concrete scenario. -/
def scenarioCalls : List (String × LogCall) :=
  [("2024-01-01T00:00:00.000Z", ⟨"CREATE", "Resident", "Added resident: Juan", "alice"⟩),
   ("2024-01-01T00:00:01.000Z", ⟨"LOGIN", "Auth", "User bob logged in", "bob"⟩),
   ("2024-01-01T00:00:02.000Z", ⟨"ARCHIVE", "Blotter", "Archived blotter case 7", "System"⟩)]

/-- The chain the scenario produces under the real digest function. -/
def scenarioChain : List Block := logActions sha256hex scenarioCalls []

/-- The identity function on strings: an injective digest stand-in used to
instantiate theorems that are quantified over the digest function. -/
def idDigest : String → String := fun s => s

/-- A small chain built with `idDigest`, cheap to evaluate in witnesses. -/
def wCalls : List (String × LogCall) :=
  [("2024-02-02T08:00:00.000Z", ⟨"CREATE", "Resident", "r1", "ana"⟩),
   ("2024-02-02T08:00:01.000Z", ⟨"UPDATE", "Official", "o1", "ben"⟩),
   ("2024-02-02T08:00:02.000Z", ⟨"ARCHIVE", "Blotter", "b1", "System"⟩)]

def wChain : List Block := logActions idDigest wCalls []

/-- The scenario chain with the middle block's `timestamp` — one stored
non-digest field — changed in storage to a value past its successor's,
without recomputing its digest. -/
def cexTampered : List Block :=
  [scenarioChain.getD 0 dummyBlock,
   { scenarioChain.getD 1 dummyBlock with timestamp := "2024-01-01T00:00:03.000Z" },
   scenarioChain.getD 2 dummyBlock]

/-- A stored block whose digest does not match its content. -/
def badBlock : Block := ⟨5, "t", none, none, none, none, "nothash", "p"⟩

/-- A store already holding the digest that `constDigest` computes. -/
def dupStore : List Block := [⟨0, "t0", none, none, none, none, "h", "p"⟩]

/-- A constant digest function, used to exhibit a duplicate-digest append. -/
def constDigest : String → String := fun _ => "h"

/-! ## The claims -/

/-- C1: every serial sequence of `logAction` appends on an initially empty
store (strictly increasing captured timestamps, no external modification)
verifies as `Secure`; in the spec's three-block scenario the chain has three
blocks, `block[2].previousHash = block[1].hash`, and `block[1].hash` is the
SHA-256 of the canonical encoding of `block[1]`'s fields. -/
theorem audit_chain_append_secure :
    (∀ calls : List (String × LogCall), nowsSortedB calls = true →
      verifyChainIntegrity sha256hex (logActions sha256hex calls []) =
        VerifyResult.secure) ∧
    scenarioChain.length = 3 ∧
    (scenarioChain.getD 2 dummyBlock).previousHash =
      (scenarioChain.getD 1 dummyBlock).hash ∧
    (scenarioChain.getD 1 dummyBlock).hash =
      sha256hex (stringifyBlockData (blockData (scenarioChain.getD 1 dummyBlock))) := by
  refine ⟨?_, by decide, by decide, by decide⟩
  intro calls hc
  exact secure_of_storeInv (storeInv_logActions storeInv_nil hc fun p _ => rfl)

theorem audit_chain_append_secure_witness :
    verifyChainIntegrity sha256hex (logActions sha256hex scenarioCalls []) =
      VerifyResult.secure :=
  audit_chain_append_secure.1 scenarioCalls (by decide)

/-- C2 (amended): mutating stored non-digest fields of one block of an intact
chain is reported as `DataTampering` at that block's index, provided the
mutation leaves the block's position in timestamp-ascending order unchanged
(a timestamp change that moves the block past a neighbour is instead reported
as a `ChainBreak` at the position where the walk first diverges — see the
counterexample) and the digest function does not collide on the old and new
encodings. -/
theorem tamper_reported_when_order_preserved {H : String → String}
    (hinj : Function.Injective H) {l1 l2 : List Block} {b b' : Block}
    (hchain : chainedB H none (l1 ++ b :: l2) = true)
    (hsorted : tsSortedB (l1 ++ b' :: l2) = true)
    (hhash : b'.hash = b.hash) (hprev : b'.previousHash = b.previousHash)
    (hdiff : blockData b' ≠ blockData b) :
    verifyChainIntegrity H (l1 ++ b' :: l2) =
      VerifyResult.compromised l1.length FailureKind.dataTampering b'.id :=
  tamperCore hinj hchain hsorted hhash hdiff

theorem tamper_reported_when_order_preserved_witness :
    verifyChainIntegrity idDigest
      (wChain.take 1 ++
        { wChain.getD 1 dummyBlock with description := some "edited" } :: []) =
      VerifyResult.compromised 1 FailureKind.dataTampering 1 :=
  tamper_reported_when_order_preserved (fun _ _ h => h)
    (b := wChain.getD 1 dummyBlock)
    (by decide) (by decide) rfl rfl (by decide)

/-- C2 counterexample: on the intact three-block scenario chain, changing only
the middle block's `timestamp` (a single stored non-digest field) to a value
beyond its successor's makes the verifier report `ChainBreak` at index 1 with
the successor's id — not `DataTampering` at the tampered block's index in
timestamp-ascending order (which would be index 2, or 1 under its old
position). -/
theorem timestamp_move_defeats_tamper_report :
    storeInvB sha256hex scenarioChain = true ∧
    verifyChainIntegrity sha256hex cexTampered =
      VerifyResult.compromised 1 FailureKind.chainBreak 2 ∧
    VerifyResult.compromised 1 FailureKind.chainBreak 2 ≠
      VerifyResult.compromised 2 FailureKind.dataTampering 1 ∧
    VerifyResult.compromised 1 FailureKind.chainBreak 2 ≠
      VerifyResult.compromised 1 FailureKind.dataTampering 1 := by
  exact ⟨by decide, by decide, by decide, by decide⟩

/-- C3: on an intact chain, deleting a middle block — or walking the blocks
with a middle block moved out of place — is reported as `ChainBreak` at the
first affected index, carrying that block's id. -/
theorem middle_block_removal_or_reorder_breaks {H : String → String}
    {l1 l2 : List Block} {b c : Block}
    (hchain : chainedB H none (l1 ++ b :: c :: l2) = true)
    (hsorted : tsSortedB (l1 ++ b :: c :: l2) = true)
    (hnodup : hashesNodupB (l1 ++ b :: c :: l2) = true)
    (hne : l1 ≠ []) :
    verifyChainIntegrity H (l1 ++ c :: l2) =
      VerifyResult.compromised l1.length FailureKind.chainBreak c.id ∧
    verifyBlocks H (l1 ++ c :: b :: l2) =
      VerifyResult.compromised l1.length FailureKind.chainBreak c.id := by
  obtain ⟨x, l1', rfl⟩ : ∃ x l1', l1 = x :: l1' := by
    cases l1 with
    | nil => exact absurd rfl hne
    | cons x xs => exact ⟨x, xs, rfl⟩
  obtain ⟨q, hq, hqmem⟩ := afterChain_some l1' x
  have hq' : afterChain none (x :: l1') = some q := hq
  have hqmem' : q ∈ x :: l1' := by
    rcases hqmem with h | rfl
    · exact List.mem_cons_of_mem _ h
    · exact List.mem_cons_self _ _
  obtain ⟨hpre, hmid⟩ := @chainedB_append H (x :: l1') (b :: c :: l2) none hchain
  rw [hq'] at hmid
  obtain ⟨hbOk, hbprev, hrest⟩ := chainedB_cons_some.mp hmid
  obtain ⟨hcOk, hcprev, hrest2⟩ := chainedB_cons_some.mp hrest
  have hbq : b.hash ≠ q.hash := by
    have hqb := hashesNodupB_split hnodup q hqmem' b (List.mem_cons_self _ _)
    exact fun h => hqb h.symm
  have hlink : c.previousHash ≠ q.hash := by
    rw [hcprev]
    exact hbq
  constructor
  · rw [verifyChainIntegrity, verifyBlocks,
      sortAsc_of_sorted (tsSortedB_delete_middle hsorted)]
    have h := @verifyFrom_break H (x :: l1') none 0 c q l2 hpre hq' hcOk hlink
    rwa [Nat.zero_add] at h
  · rw [verifyBlocks]
    have h := @verifyFrom_break H (x :: l1') none 0 c q (b :: l2) hpre hq' hcOk hlink
    rwa [Nat.zero_add] at h

theorem middle_block_removal_or_reorder_breaks_witness :
    verifyChainIntegrity idDigest (wChain.take 1 ++ wChain.getD 2 dummyBlock :: []) =
      VerifyResult.compromised 1 FailureKind.chainBreak 2 ∧
    verifyBlocks idDigest
      (wChain.take 1 ++ wChain.getD 2 dummyBlock :: wChain.getD 1 dummyBlock :: []) =
      VerifyResult.compromised 1 FailureKind.chainBreak 2 :=
  middle_block_removal_or_reorder_breaks
    (b := wChain.getD 1 dummyBlock)
    (by decide) (by decide) (by decide) (by decide)

/-- C4: the append path and the verify path share one canonical encoding —
the fixed key order `timestamp, user, action, module, description,
previousHash` serialized by the same stringifier — so the encoding-plus-digest
functions of the two paths agree on every field set; the digest is 64
lowercase-hex characters, and a freshly appended block always re-verifies
against its own stored digest. -/
theorem canonical_encoding_shared :
    (∀ t u a m d p : String, appendEncode t u a m d p =
      stringifyBlockData ⟨t, some u, some a, some m, some d, p⟩) ∧
    (∀ t u a m d p : String, sha256hex (appendEncode t u a m d p) =
      sha256hex (stringifyBlockData ⟨t, some u, some a, some m, some d, p⟩)) ∧
    (∀ (H : String → String) (now : String) (c : LogCall) (store : List Block),
      recomputeHash H (mkBlock H now c store) = (mkBlock H now c store).hash) ∧
    (∀ s : String, (sha256hex s).length = 64 ∧
      (sha256hex s).data.all isLowerHexDigit = true) :=
  ⟨fun _ _ _ _ _ _ => rfl, fun _ _ _ _ _ _ => rfl, fun _ _ _ _ => rfl,
   fun s => ⟨sha256hex_length s, sha256hex_all_lower s⟩⟩

/-- C5: an append links the new block to the stored tip's digest, or to the
all-zero genesis constant on an empty store; consequently a serially appended
chain is fully linked, its oldest block carries the genesis constant, and no
later block does. -/
theorem append_links_to_tip :
    (∀ (H : String → String) (now : String) (c : LogCall) (store s : List Block),
      logActionBody H now c store = Except.ok s →
      s = store ++ [mkBlock H now c store] ∧
      (mkBlock H now c store).previousHash = tipHash store ∧
      (store = [] → (mkBlock H now c store).previousHash = GENESIS) ∧
      (∀ tip, getTip store = some tip →
        (mkBlock H now c store).previousHash = tip.hash)) ∧
    (∀ calls : List (String × LogCall), nowsSortedB calls = true →
      linkedB (logActions sha256hex calls []) = true ∧
      (∀ b, (logActions sha256hex calls []).head? = some b →
        b.previousHash = GENESIS) ∧
      (∀ b ∈ (logActions sha256hex calls []).tail, b.previousHash ≠ GENESIS)) := by
  constructor
  · intro H now c store s h
    rw [logActionBody_eq] at h
    by_cases hdup : (store.any fun bb => bb.hash == (mkBlock H now c store).hash) = true
    · rw [if_pos hdup] at h
      exact absurd h (by simp)
    · rw [if_neg hdup] at h
      refine ⟨(Except.ok.inj h).symm, rfl, ?_, ?_⟩
      · intro he
        subst he
        rfl
      · intro tip htip
        show tipHash store = tip.hash
        rw [tipHash, htip]
  · intro calls hc
    have hinv := storeInv_logActions (H := sha256hex) storeInv_nil hc fun p _ => rfl
    obtain ⟨hs, hch, hn, hg⟩ := storeInvB_iff.mp hinv
    refine ⟨chainedB_linkedB _ _ hch, hg, ?_⟩
    intro b hb
    rcases hl : logActions sha256hex calls [] with _ | ⟨x, xs⟩
    · rw [hl] at hb
      simp at hb
    · rw [hl] at hb hch
      obtain ⟨hxOk, hxs⟩ := chainedB_cons_none.mp hch
      obtain ⟨a, ha⟩ := chained_tail_prev xs x hxOk hxs b hb
      rw [ha]
      exact sha256hex_ne_GENESIS _

theorem append_links_to_tip_witness :
    linkedB (logActions sha256hex scenarioCalls []) = true ∧
    (mkBlock idDigest "2024-03-03T00:00:00.000Z" ⟨"CREATE", "Resident", "x", "u"⟩
      []).previousHash = GENESIS :=
  ⟨(append_links_to_tip.2 scenarioCalls (by decide)).1,
   ((append_links_to_tip.1 idDigest "2024-03-03T00:00:00.000Z"
      ⟨"CREATE", "Resident", "x", "u"⟩ []
      ([] ++ [mkBlock idDigest "2024-03-03T00:00:00.000Z"
        ⟨"CREATE", "Resident", "x", "u"⟩ []]) rfl).2.2.1 rfl)⟩

/-- C6: verification always returns exactly one of the two result shapes,
reports at most one failure — the walk beyond the failing index is never
examined — and checks data tampering before the chain link at every index. -/
theorem verify_result_contract (H : String → String) :
    (∀ logs : List Block, verifyBlocks H logs = VerifyResult.secure ∨
      ∃ i k bid, verifyBlocks H logs = VerifyResult.compromised i k bid) ∧
    (∀ (logs : List Block) (i : Nat) (k : FailureKind) (bid : Nat),
      verifyBlocks H logs = VerifyResult.compromised i k bid →
      ∀ rest, verifyBlocks H (logs.take (i + 1) ++ rest) =
        VerifyResult.compromised i k bid) ∧
    (∀ (prev : Option Block) (i : Nat) (b : Block) (rest : List Block),
      recomputeHash H b ≠ b.hash →
      verifyFrom H prev i (b :: rest) =
        VerifyResult.compromised i FailureKind.dataTampering b.id) := by
  refine ⟨?_, ?_, ?_⟩
  · intro logs
    cases h : verifyBlocks H logs with
    | secure => exact Or.inl rfl
    | compromised i k bid => exact Or.inr ⟨i, k, bid, rfl⟩
  · intro logs i k bid h rest
    obtain ⟨n, hn, hall⟩ := verifyFrom_take logs none 0 i k bid h
    have hni : n = i := by omega
    subst hni
    exact hall rest
  · intro prev i b rest hb
    cases prev <;> simp [verifyFrom, hb]

theorem verify_result_contract_witness :
    verifyFrom idDigest none 0 [badBlock] =
      VerifyResult.compromised 0 FailureKind.dataTampering 5 ∧
    verifyBlocks idDigest ([badBlock].take (0 + 1) ++ [dummyBlock]) =
      VerifyResult.compromised 0 FailureKind.dataTampering 5 :=
  ⟨(verify_result_contract idDigest).2.2 none 0 badBlock [] (by decide),
   (verify_result_contract idDigest).2.1 [badBlock] 0 FailureKind.dataTampering 5
     (by decide) [dummyBlock]⟩

/-- C7: `logAction` never propagates an error to its caller: either its body
succeeded and the caller observes the new store, or the body failed with some
error that the surrounding catch swallowed, leaving the store — and hence the
triggering business operation — unaffected. There is no third outcome. -/
theorem logAction_never_throws :
    ∀ (H : String → String) (now : String) (c : LogCall) (store : List Block),
      logActionBody H now c store = Except.ok (logAction H now c store) ∨
      ((∃ e, logActionBody H now c store = Except.error e) ∧
        logAction H now c store = store) := by
  intro H now c store
  cases h : logActionBody H now c store with
  | ok s =>
    left
    rw [logAction, h]
  | error e =>
    right
    refine ⟨⟨e, rfl⟩, ?_⟩
    rw [logAction, h]

/-- C8: digests are globally unique in every reachable store: an append whose
computed digest already exists fails with the duplicate-key error and persists
nothing, so stores built by any append sequence have pairwise distinct
digests. -/
theorem digest_unique :
    (∀ (H : String → String) (now : String) (c : LogCall) (store : List Block),
      (store.any fun b => b.hash == (mkBlock H now c store).hash) = true →
      logActionBody H now c store = Except.error "E11000 duplicate key" ∧
      logAction H now c store = store) ∧
    (∀ (H : String → String) (now : String) (c : LogCall) (store : List Block),
      hashesNodupB store = true → hashesNodupB (logAction H now c store) = true) ∧
    (∀ (H : String → String) (calls : List (String × LogCall)),
      hashesNodupB (logActions H calls []) = true) := by
  have step : ∀ (H : String → String) (now : String) (c : LogCall)
      (store : List Block), hashesNodupB store = true →
      hashesNodupB (logAction H now c store) = true := by
    intro H now c store h
    rw [logAction_eq]
    by_cases hdup : (store.any fun b => b.hash == (mkBlock H now c store).hash) = true
    · rw [if_pos hdup]
      exact h
    · rw [if_neg hdup]
      exact hashesNodupB_append_one h (Bool.eq_false_iff.mpr hdup)
  refine ⟨?_, step, ?_⟩
  · intro H now c store h
    exact ⟨by rw [logActionBody_eq, if_pos h], by rw [logAction_eq, if_pos h]⟩
  · intro H calls
    suffices hgen : ∀ store : List Block, hashesNodupB store = true →
        hashesNodupB (logActions H calls store) = true from hgen [] rfl
    induction calls with
    | nil => intro store h; exact h
    | cons p rest ih =>
      intro store h
      exact ih _ (step H p.1 p.2 store h)

theorem digest_unique_witness :
    logAction constDigest "t1" ⟨"a", "m", "d", "u"⟩ dupStore = dupStore ∧
    hashesNodupB (logAction constDigest "t1" ⟨"a", "m", "d", "u"⟩ dupStore) = true :=
  ⟨(digest_unique.1 constDigest "t1" ⟨"a", "m", "d", "u"⟩ dupStore (by decide)).2,
   digest_unique.2.1 constDigest "t1" ⟨"a", "m", "d", "u"⟩ dupStore (by decide)⟩

/-- C9: a malformed stored block — one whose non-required hashable fields
(`user`, `action`, `module`, `description`) are missing where the original
block had them — does not crash verification: the recomputed digest over the
remaining fields differs from the stored digest, so the verifier returns the
structured `DataTampering` report at that block's index. -/
theorem malformed_block_reported {H : String → String}
    (hinj : Function.Injective H) {l1 l2 : List Block} {b b' : Block}
    (hchain : chainedB H none (l1 ++ b :: l2) = true)
    (hsorted : tsSortedB (l1 ++ b' :: l2) = true)
    (hts : b'.timestamp = b.timestamp)
    (hu : b'.user = b.user ∨ b'.user = none)
    (ha : b'.action = b.action ∨ b'.action = none)
    (hm : b'.module = b.module ∨ b'.module = none)
    (hd : b'.description = b.description ∨ b'.description = none)
    (hhash : b'.hash = b.hash) (hprev : b'.previousHash = b.previousHash)
    (hmiss : b'.user ≠ b.user ∨ b'.action ≠ b.action ∨ b'.module ≠ b.module ∨
      b'.description ≠ b.description) :
    verifyChainIntegrity H (l1 ++ b' :: l2) =
      VerifyResult.compromised l1.length FailureKind.dataTampering b'.id := by
  have hdiff : blockData b' ≠ blockData b := by
    intro he
    have h1 := congrArg BlockData.user he
    have h2 := congrArg BlockData.action he
    have h3 := congrArg BlockData.module he
    have h4 := congrArg BlockData.description he
    simp only [blockData] at h1 h2 h3 h4
    rcases hmiss with h | h | h | h
    · exact h h1
    · exact h h2
    · exact h h3
    · exact h h4
  exact tamperCore hinj hchain hsorted hhash hdiff

theorem malformed_block_reported_witness :
    verifyChainIntegrity idDigest
      (wChain.take 1 ++ { wChain.getD 1 dummyBlock with description := none } :: []) =
      VerifyResult.compromised 1 FailureKind.dataTampering 1 :=
  malformed_block_reported (fun _ _ h => h)
    (b := wChain.getD 1 dummyBlock)
    (by decide) (by decide) rfl (Or.inl rfl) (Or.inl rfl) (Or.inl rfl)
    (Or.inr rfl) rfl rfl (Or.inr (Or.inr (Or.inr (by decide))))

/-- C10: verifying an empty store reports `Secure` — the loop over zero blocks
is vacuously satisfied — for any digest function, in particular SHA-256. -/
theorem empty_store_verifies_secure :
    (∀ H : String → String, verifyChainIntegrity H [] = VerifyResult.secure) ∧
    verifyChainIntegrity sha256hex [] = VerifyResult.secure :=
  ⟨fun _ => rfl, rfl⟩

end Barangay

